import Mathlib

/-!
Verification development for the `sgidal-example` co-simulation repository.

The repository's numeric kernel works on numpy float arrays; we embed it
shallowly over exact rationals (`ℚ`), with complex numbers modelled as pairs
of rationals, vectors as `List`s and matrices as `List (List _)`.  Fallible
Python code (dictionary lookups, numpy fancy indexing, asserts) is embedded
as `Option`-returning functions.  The transcendental map `θ ↦ exp(i·θ)` is
not expressible over ℚ; definitions that need it take it as an explicit
oracle argument `cexp`, shared between the source-side and spec-side
definitions so that only the algebraic structure is at stake.
The `scipy.optimize.least_squares` call is likewise an oracle
`ls : LSProblem → List ℚ` mapping the exact argument pack the source builds
to the solver's raw result vector.
-/

set_option linter.unusedVariables false

namespace SGIDAL

/-- Complex number as a pair of rationals, modelling a numpy complex scalar. -/
structure Cplx where
  re : ℚ
  im : ℚ
  deriving DecidableEq, Repr

/-- Complex zero. -/
def czero : Cplx := ⟨0, 0⟩

/-- Complex addition. -/
def cadd (a b : Cplx) : Cplx := ⟨a.re + b.re, a.im + b.im⟩

/-- Complex negation. -/
def cneg (a : Cplx) : Cplx := ⟨-a.re, -a.im⟩

/-- Complex multiplication. -/
def cmul (a b : Cplx) : Cplx :=
  ⟨a.re * b.re - a.im * b.im, a.re * b.im + a.im * b.re⟩

/-- Complex conjugation (numpy `.conjugate()` on a scalar). -/
def conj (a : Cplx) : Cplx := ⟨a.re, -a.im⟩

/-- Scaling of a complex number by a rational (real) factor. -/
def cscale (r : ℚ) (a : Cplx) : Cplx := ⟨r * a.re, r * a.im⟩

/-- Predicate for `|a| > t`, stated without square roots: `|a| > t ↔ t < 0 ∨ t² < |a|²`.
This embeds the numpy comparison `np.abs(a) > t` exactly. -/
def absGt (a : Cplx) (t : ℚ) : Prop :=
  t < 0 ∨ t * t < a.re * a.re + a.im * a.im

instance (a : Cplx) (t : ℚ) : Decidable (absGt a t) :=
  inferInstanceAs (Decidable (_ ∨ _))

/-- Elementwise conjugation of a vector (numpy `.conjugate()`). -/
def vecConj (v : List Cplx) : List Cplx := v.map conj

/-- Elementwise conjugation of a matrix (numpy `.conjugate()`). -/
def matConj (Y : List (List Cplx)) : List (List Cplx) := Y.map vecConj

/-- Complex dot product of two equal-length vectors (row of `@`). -/
def dotc (r v : List Cplx) : Cplx := (List.zipWith cmul r v).foldr cadd czero

/-- Matrix–vector product, numpy `Y @ v`. -/
def matvec (Y : List (List Cplx)) (v : List Cplx) : List Cplx :=
  Y.map (fun row => dotc row v)

/-- Option-valued traversal of a list: succeeds iff `f` succeeds on every
element, modelling a Python list comprehension whose body may raise. -/
def mapOption (f : α → Option β) : List α → Option (List β)
  | [] => some []
  | x :: xs =>
    match f x with
    | none => none
    | some y => (mapOption f xs).map (fun ys => y :: ys)

/-- Position of the LAST occurrence of `v` in `ids`, or `none`.  This is the
value of `{v: i for i, v in enumerate(ids)}[v]` in Python: later duplicates
overwrite earlier ones, and a missing key raises `KeyError` (here `none`). -/
def invLookup (ids : List String) (v : String) : Option Nat :=
  match ids with
  | [] => none
  | x :: xs =>
    match invLookup xs v with
    | some k => some (k + 1)
    | none => if x = v then some 0 else none

/-- Arithmetic mean, `np.mean`. -/
def meanQ (xs : List ℚ) : ℚ := xs.sum / xs.length

/-- The double-precision value of `np.pi`, as an exact rational; only used in
the dead bound computation of the un-observable solver branch. -/
def piFloat : ℚ := 3.141592653589793

/-! ## Data model (spec §3/§6; gadal `MeasurementArray`, `Topology`)

Optional fields mirror pydantic `Optional` fields: constructing a record
without them leaves them `none`. -/

/-- A labelled measurement vector: parallel `values`/`ids` plus metadata. -/
structure MeasurementArray where
  values : List ℚ
  ids : List String
  units : String
  equipment_type : Option (List String)
  accuracy : Option (List ℚ)
  bad_data_threshold : Option (List ℚ)
  time : Option ℚ
  deriving DecidableEq, Repr

/-- Dense admittance matrix over an ordered id list; entries are
`(re, im)` pairs as in the gadal `Complex` wire type. -/
structure AdmittanceMatrix where
  admittance_matrix : List (List (ℚ × ℚ))
  ids : List String
  deriving DecidableEq, Repr

/-- Topology record; the `injections` field of the wire type is unused by the
embedded components and omitted. -/
structure Topology where
  admittance : AdmittanceMatrix
  base_voltage_magnitudes : MeasurementArray
  base_voltage_angles : MeasurementArray
  slack_bus : List String
  deriving DecidableEq, Repr

/-! ## `measuring_federate.py`: `reindex`, and `state_estimator_federate.py`:
`get_indices`, `matrix_to_numpy` -/

/-- Embedding of `reindex(measurement_array, indices)` from `measuring_federate.py`:
builds `inv_map` from the array's own ids (later duplicates win), then reads
`values[inv_map[i]]` for each target id `i` (`KeyError`/`IndexError` ↦
`none`).  The `MeasurementArray` constructor call names only `values`, `ids`,
`units`, `equipment_type` and `time`, so `accuracy` and `bad_data_threshold`
of the result are the pydantic defaults, `none`. -/
def reindex (measurement_array : MeasurementArray) (indices : List String) :
    Option MeasurementArray :=
  (mapOption
      (fun i => (invLookup measurement_array.ids i).bind
        (fun k => measurement_array.values.get? k)) indices).map
    (fun vals =>
      { values := vals
        ids := indices
        units := measurement_array.units
        equipment_type := measurement_array.equipment_type
        accuracy := none
        bad_data_threshold := none
        time := measurement_array.time })

/-- Embedding of `get_indices(topology, measurement)` from `state_estimator_federate.py`:
position of each measurement id in `topology.admittance.ids` via the
inverted dictionary; a missing id raises `KeyError` (↦ `none`). -/
def get_indices (topology : Topology) (measurement : MeasurementArray) :
    Option (List Nat) :=
  mapOption (fun v => invLookup topology.admittance.ids v) measurement.ids

/-- Embedding of `matrix_to_numpy(admittance)`: list of lists of `(re, im)` pairs into a
complex matrix, `x[0] + 1j*x[1]`. -/
def matrix_to_numpy (admittance : List (List (ℚ × ℚ))) : List (List Cplx) :=
  admittance.map (fun row => row.map (fun x => ⟨x.1, x.2⟩))

/-- The value of `a` at id `v` (0 when absent), i.e. `values[inv_map[v]]`. -/
def valueAt (a : MeasurementArray) (v : String) : ℚ :=
  ((invLookup a.ids v).bind (fun k => a.values.get? k)).getD 0

/-- Embedding of `cal_h` from `state_estimator_federate.py`:
`h1 = VabsK[knownV]`, `Vp = VabsK * exp(1j*deltaK)`,
`S  = Vp * (Y.conjugate() @ Vp.conjugate())`,
`h = [h1; S.real[knownP]; S.imag[knownQ]]`.
`cexp` is the oracle for `θ ↦ exp(i·θ)`; numpy fancy indexing out of range
raises (↦ `none`).  `num_node` is unused by the source body (it only shapes
reshapes) and kept for signature fidelity. -/
def cal_h (cexp : ℚ → Cplx) (knownP knownQ knownV : List ℕ)
    (Y : List (List Cplx)) (deltaK VabsK : List ℚ) (num_node : ℕ) :
    Option (List ℚ) :=
  match mapOption (fun k => VabsK.get? k) knownV with
  | none => none
  | some h1 =>
    let Vp := List.zipWith (fun m d => cscale m (cexp d)) VabsK deltaK
    let S := List.zipWith cmul Vp (matvec (matConj Y) (vecConj Vp))
    match mapOption (fun k => (S.get? k).map Cplx.re) knownP with
    | none => none
    | some h2 =>
      match mapOption (fun k => (S.get? k).map Cplx.im) knownQ with
      | none => none
      | some h3 => some (h1 ++ h2 ++ h3)

/-- The claim's reference measurement function, written from its words:
`S = Vp ⊙ conj(Y @ conj(Vp))`, stacked as
`[magnitude at knownV; real(S) at knownP; imag(S) at knownQ]`. -/
def claim_h (cexp : ℚ → Cplx) (knownP knownQ knownV : List ℕ)
    (Y : List (List Cplx)) (deltaK VabsK : List ℚ) (num_node : ℕ) :
    Option (List ℚ) :=
  match mapOption (fun k => VabsK.get? k) knownV with
  | none => none
  | some h1 =>
    let Vp := List.zipWith (fun m d => cscale m (cexp d)) VabsK deltaK
    let S := List.zipWith cmul Vp (vecConj (matvec Y (vecConj Vp)))
    match mapOption (fun k => (S.get? k).map Cplx.re) knownP with
    | none => none
    | some h2 =>
      match mapOption (fun k => (S.get? k).map Cplx.im) knownQ with
      | none => none
      | some h3 => some (h1 ++ h2 ++ h3)

/-- The amended reference measurement function: the inner conjugation moves
off the voltage, `S = Vp ⊙ conj(Y @ Vp)`; the stacking is unchanged. -/
def claim_h_amended (cexp : ℚ → Cplx) (knownP knownQ knownV : List ℕ)
    (Y : List (List Cplx)) (deltaK VabsK : List ℚ) (num_node : ℕ) :
    Option (List ℚ) :=
  match mapOption (fun k => VabsK.get? k) knownV with
  | none => none
  | some h1 =>
    let Vp := List.zipWith (fun m d => cscale m (cexp d)) VabsK deltaK
    let S := List.zipWith cmul Vp (vecConj (matvec Y Vp))
    match mapOption (fun k => (S.get? k).map Cplx.re) knownP with
    | none => none
    | some h2 =>
      match mapOption (fun k => (S.get? k).map Cplx.im) knownQ with
      | none => none
      | some h3 => some (h1 ++ h2 ++ h3)

/-- Embedding of `residual(X0, z, ...)` from `state_estimator_federate.py`:
split `X0` into angle and magnitude halves, evaluate `cal_h`, return `z-h`. -/
def residual (cexp : ℚ → Cplx) (X0 z : List ℚ) (num_node : ℕ)
    (knownP knownQ knownV : List ℕ) (Y : List (List Cplx)) :
    Option (List ℚ) :=
  let delta := X0.take num_node
  let Vabs := X0.drop num_node
  (cal_h cexp knownP knownQ knownV Y delta Vabs num_node).map
    (fun h => List.zipWith (· - ·) z h)

/-- A `cexp` oracle sending every angle to `i` (the value of `exp(i·θ)` at
`θ = π/2`); it has unit modulus, so it is realized by a genuine angle. -/
def cexpQuarterTurn : ℚ → Cplx := fun _ => ⟨0, 1⟩

/-- The `UnitSystem` enum. -/
inductive UnitSystem where
  | SI
  | PER_UNIT
  deriving DecidableEq, Repr

/-- The `AlgorithmParameters` pydantic model with its defaults. -/
structure AlgorithmParameters where
  tol : ℚ := 5e-7
  units : UnitSystem := UnitSystem.PER_UNIT
  base_power : Option ℚ := some 100
  deriving DecidableEq, Repr

/-- The measurement-vector / admittance normalization block of
`state_estimator` (its `if parameters.units == ...` chain), factored out:
- `SI`: `z = [V.array; -1000*P.array; -1000*Q.array]`, `Y` as given;
- `PER_UNIT`: `base_power` defaults to 100 when the parameter is `None`;
  `z = [V.values / base_voltages[knownV]; -P.values/base_power;
  -Q.values/base_power]`, and
  `Y' = base_voltages.reshape(1,-1) * Y * base_voltages.reshape(-1,1)
  / (base_power*1000)`, i.e. entry `(i,j)` is scaled by
  `bv[j]*bv[i]/(base_power*1000)`.
The enum has no further value, so the source's `raise` arm is dead. -/
def build_z_Y (parameters : AlgorithmParameters) (topology : Topology)
    (P Q V : MeasurementArray) (knownV : List ℕ) :
    Option (List ℚ × List (List Cplx)) :=
  let base_voltages := topology.base_voltage_magnitudes.values
  match parameters.units with
  | UnitSystem.SI =>
    some (V.values ++ P.values.map (fun p => -1000 * p)
        ++ Q.values.map (fun q => -1000 * q),
      matrix_to_numpy topology.admittance.admittance_matrix)
  | UnitSystem.PER_UNIT =>
    let base_power : ℚ :=
      match parameters.base_power with
      | none => 100
      | some bp => bp
    match mapOption (fun k => base_voltages.get? k) knownV with
    | none => none
    | some bvK =>
      let z := List.zipWith (· / ·) V.values bvK
        ++ P.values.map (fun p => -p / base_power)
        ++ Q.values.map (fun q => -q / base_power)
      let Y := matrix_to_numpy topology.admittance.admittance_matrix
      some (z, List.zipWith
        (fun bi row => List.zipWith
          (fun bj yij => cscale (bj * bi / (base_power * 1000)) yij) base_voltages row)
        base_voltages Y)

/-- The claim's normalization rule, written from its words: powers scaled by
`+1000` under `SI` and divided by `base_power` (no negation) under
`PER_UNIT`; voltages and the admittance rescaling as in the claim. -/
def claim_z_Y (parameters : AlgorithmParameters) (topology : Topology)
    (P Q V : MeasurementArray) (knownV : List ℕ) :
    Option (List ℚ × List (List Cplx)) :=
  let base_voltages := topology.base_voltage_magnitudes.values
  match parameters.units with
  | UnitSystem.SI =>
    some (V.values ++ P.values.map (fun p => 1000 * p)
        ++ Q.values.map (fun q => 1000 * q),
      matrix_to_numpy topology.admittance.admittance_matrix)
  | UnitSystem.PER_UNIT =>
    let base_power : ℚ :=
      match parameters.base_power with
      | none => 100
      | some bp => bp
    match mapOption (fun k => base_voltages.get? k) knownV with
    | none => none
    | some bvK =>
      let z := List.zipWith (· / ·) V.values bvK
        ++ P.values.map (fun p => p / base_power)
        ++ Q.values.map (fun q => q / base_power)
      let Y := matrix_to_numpy topology.admittance.admittance_matrix
      some (z, List.zipWith
        (fun bi row => List.zipWith
          (fun bj yij => cscale (bj * bi / (base_power * 1000)) yij) base_voltages row)
        base_voltages Y)

/-- The amended normalization rule: as the claim, except that the powers are
additionally negated — scaled by `-(1000·p)` under `SI` and mapped to
`-(p/base_power)` under `PER_UNIT`. -/
def claim_z_Y_amended (parameters : AlgorithmParameters) (topology : Topology)
    (P Q V : MeasurementArray) (knownV : List ℕ) :
    Option (List ℚ × List (List Cplx)) :=
  let base_voltages := topology.base_voltage_magnitudes.values
  match parameters.units with
  | UnitSystem.SI =>
    some (V.values ++ P.values.map (fun p => -(1000 * p))
        ++ Q.values.map (fun q => -(1000 * q)),
      matrix_to_numpy topology.admittance.admittance_matrix)
  | UnitSystem.PER_UNIT =>
    let base_power : ℚ :=
      match parameters.base_power with
      | none => 100
      | some bp => bp
    match mapOption (fun k => base_voltages.get? k) knownV with
    | none => none
    | some bvK =>
      let z := List.zipWith (· / ·) V.values bvK
        ++ P.values.map (fun p => -(p / base_power))
        ++ Q.values.map (fun q => -(q / base_power))
      let Y := matrix_to_numpy topology.admittance.admittance_matrix
      some (z, List.zipWith
        (fun bi row => List.zipWith
          (fun bj yij => cscale (bj * bi / (base_power * 1000)) yij) base_voltages row)
        base_voltages Y)

/-- A scalar-or-array initial guess, modelling the
`if type(initial_ang) != np.ndarray: np.full(num_node, ...)` convention. -/
inductive InitGuess where
  | scalar (x : ℚ)
  | arr (v : List ℚ)
  deriving DecidableEq, Repr

/-- Expansion of a scalar-or-array initial guess into the length-`num_node`
vector the source feeds to the solver (`np.full(num_node, x)` for a scalar,
the array itself otherwise); identical to the two matches inside
`state_estimator` and named so the solver's exact initial point can be
spoken about in theorem statements. -/
def expandGuess (num_node : ℕ) (g : InitGuess) : List ℚ :=
  match g with
  | InitGuess.scalar x => List.replicate num_node x
  | InitGuess.arr v => v

/-- The argument pack of a `scipy.optimize.least_squares` call as built by
`state_estimator`.  Both call sites also pass the same fixed `residual`
function, the same analytic Jacobian `cal_H`, and `verbose=2`; those are
constants of the source, so the oracle `ls : LSProblem → List ℚ` (standing
for `res_1.x`) is a function of this pack alone. -/
structure LSProblem where
  X0 : List ℚ
  z : List ℚ
  num_node : ℕ
  knownP : List ℕ
  knownQ : List ℕ
  knownV : List ℕ
  Y : List (List Cplx)
  ftol : ℚ
  xtol : ℚ
  gtol : ℚ
  deriving Repr

/-- The solver branch taken when
`len(knownP)+len(knownV)+len(knownQ) < 2*num_node` ("not observable"): it
builds `low_limit`/`up_limit` bound arrays but the `bounds=` argument is
commented out, so they are dead and the unconstrained call is made. -/
def solverBranchUnobservable (ls : LSProblem → List ℚ) (X0 z : List ℚ)
    (num_node : ℕ) (knownP knownQ knownV : List ℕ) (Y : List (List Cplx))
    (tol : ℚ) : List ℚ :=
  let low_limit := List.replicate num_node (-piFloat - piFloat / 6)
    ++ List.replicate num_node 0.90
  let up_limit := List.replicate num_node (piFloat + piFloat / 6)
    ++ List.replicate num_node 1.05
  ls ⟨X0, z, num_node, knownP, knownQ, knownV, Y, tol, tol, tol⟩

/-- The solver branch taken otherwise: the same unconstrained call (its
`bounds=`/`method=` lines are likewise commented out). -/
def solverBranchObservable (ls : LSProblem → List ℚ) (X0 z : List ℚ)
    (num_node : ℕ) (knownP knownQ knownV : List ℕ) (Y : List (List Cplx))
    (tol : ℚ) : List ℚ :=
  ls ⟨X0, z, num_node, knownP, knownQ, knownV, Y, tol, tol, tol⟩

/-- The post-processing tail of `state_estimator`: split the solver result,
shift angles by the slack entry, and under `PER_UNIT` rescale magnitudes by
the base voltages (`vangestDecen[slack_index]` out of range raises). -/
def se_post (units : UnitSystem) (base_voltages : List ℚ) (slack_index : ℕ)
    (num_node : ℕ) (result : List ℚ) : Option (List ℚ × List ℚ) :=
  let vmagestDecen := result.drop num_node
  let vangestDecen := result.take num_node
  match vangestDecen.get? slack_index with
  | none => none
  | some vs =>
    let vang := vangestDecen.map (fun a => a - vs)
    match units with
    | UnitSystem.SI => some (vmagestDecen, vang)
    | UnitSystem.PER_UNIT =>
      some (List.zipWith (· * ·) vmagestDecen base_voltages, vang)

/-- Embedding of `state_estimator`: with arguments `(parameters, topology, P, Q, V, initial_ang, initial_V,
slack_index)`: canonical index lookup, unit normalization (`build_z_Y`),
expansion of scalar initial guesses with the two shape asserts (assert
failure ↦ `none`), the observability branch, and post-processing. -/
def state_estimator (ls : LSProblem → List ℚ)
    (parameters : AlgorithmParameters) (topology : Topology)
    (P Q V : MeasurementArray) (initial_ang initial_V : InitGuess)
    (slack_index : ℕ) : Option (List ℚ × List ℚ) :=
  let num_node := topology.admittance.ids.length
  let base_voltages := topology.base_voltage_magnitudes.values
  match get_indices topology P with
  | none => none
  | some knownP =>
    match get_indices topology Q with
    | none => none
    | some knownQ =>
      match get_indices topology V with
      | none => none
      | some knownV =>
        match build_z_Y parameters topology P Q V knownV with
        | none => none
        | some zY =>
          let z := zY.1
          let Y := zY.2
          let tol := parameters.tol
          let delta :=
            match initial_ang with
            | InitGuess.scalar a => List.replicate num_node a
            | InitGuess.arr v => v
          if delta.length = num_node then
            let Vabs :=
              match initial_V with
              | InitGuess.scalar x => List.replicate num_node x
              | InitGuess.arr v => v
            if Vabs.length = num_node then
              let X0 := delta ++ Vabs
              let res_1 :=
                if knownP.length + knownV.length + knownQ.length
                    < num_node * 2 then
                  solverBranchUnobservable ls X0 z num_node knownP knownQ
                    knownV Y tol
                else
                  solverBranchObservable ls X0 z num_node knownP knownQ
                    knownV Y tol
              se_post parameters.units base_voltages slack_index num_node
                res_1
            else none
          else none

/-- The single-code-path variant of `state_estimator`, always making the one
unconstrained solver call (the spec's "collapse to one code path"). -/
def state_estimator_single (ls : LSProblem → List ℚ)
    (parameters : AlgorithmParameters) (topology : Topology)
    (P Q V : MeasurementArray) (initial_ang initial_V : InitGuess)
    (slack_index : ℕ) : Option (List ℚ × List ℚ) :=
  let num_node := topology.admittance.ids.length
  let base_voltages := topology.base_voltage_magnitudes.values
  match get_indices topology P with
  | none => none
  | some knownP =>
    match get_indices topology Q with
    | none => none
    | some knownQ =>
      match get_indices topology V with
      | none => none
      | some knownV =>
        match build_z_Y parameters topology P Q V knownV with
        | none => none
        | some zY =>
          let z := zY.1
          let Y := zY.2
          let tol := parameters.tol
          let delta :=
            match initial_ang with
            | InitGuess.scalar a => List.replicate num_node a
            | InitGuess.arr v => v
          if delta.length = num_node then
            let Vabs :=
              match initial_V with
              | InitGuess.scalar x => List.replicate num_node x
              | InitGuess.arr v => v
            if Vabs.length = num_node then
              let X0 := delta ++ Vabs
              let res_1 := solverBranchObservable ls X0 z num_node knownP
                knownQ knownV Y tol
              se_post parameters.units base_voltages slack_index num_node
                res_1
            else none
          else none

/-! ## `sender_cosim.py`: power-balance consistency check -/

/-- A labelled complex vector, modelling an xarray with an `ids`
coordinate.  The arrays combined below all carry the simulator's node ids in
the same order, so xarray's coordinate alignment is positional here. -/
structure XArr where
  data : List Cplx
  ids : List String
  deriving DecidableEq, Repr

/-- Embedding of `calculated_power` of `get_current_data`:
`feeder_voltages * (Y.conjugate() @ feeder_voltages.conjugate()) / 1000`. -/
def calculated_power (Y : List (List Cplx)) (feeder_voltages : XArr) : XArr :=
  ⟨(List.zipWith cmul feeder_voltages.data
      (matvec (matConj Y) (vecConj feeder_voltages.data))).map
    (fun s => cscale (1 / 1000) s),
    feeder_voltages.ids⟩

/-- The claim's formula for the calculated power, written from its words:
`calculated[i] = V[i] * conj((Y @ conj(V))[i])` (no `/1000`). -/
def claim_calculated (Y : List (List Cplx)) (V : XArr) : XArr :=
  ⟨List.zipWith cmul V.data (vecConj (matvec Y (vecConj V.data))), V.ids⟩

/-- The amended formula: `calculated[i] = V[i] * conj((Y @ V)[i]) / 1000`
(equivalently `V[i] * (conj(Y) @ conj(V))[i] / 1000`). -/
def claim_calculated_amended (Y : List (List Cplx)) (V : XArr) : XArr :=
  ⟨(List.zipWith cmul V.data (vecConj (matvec Y V.data))).map
    (fun s => cscale (1 / 1000) s),
    V.ids⟩

/-- The override at the end of `get_current_data`:
`PQ_injections_all[sim._source_indexes] = -calculated_power[...]`, i.e. the
aggregated injection at every source index is replaced by the exact
negation of the calculated power there. -/
def override_source_injections (PQ_injections_all calcP : XArr)
    (source_indexes : List ℕ) : XArr :=
  ⟨(List.range PQ_injections_all.data.length).map (fun i =>
      if i ∈ source_indexes then cneg (calcP.data.getD i czero)
      else PQ_injections_all.data.getD i czero),
    PQ_injections_all.ids⟩

/-- Embedding of `where_power_unbalanced(PQ_injections_all, calculated_power, tol=1)`:
`errors = PQ_injections_all + calculated_power`, then
`errors.ids[np.where(np.abs(errors) > tol)]`. -/
def where_power_unbalanced (PQ_injections_all calcP : XArr) (tol : ℚ) :
    List String :=
  let errors := List.zipWith cadd PQ_injections_all.data calcP.data
  (PQ_injections_all.ids.zip errors).filterMap
    (fun q => if absGt q.2 tol then some q.1 else none)

/-- The claim's description of the returned set: the ids at positions `i`
with `|declared[i] + calculated[i]| > tol`. -/
def claim_unbalanced_set (PQ_injections_all calcP : XArr) (tol : ℚ) :
    List String :=
  (List.range PQ_injections_all.ids.length).filterMap (fun i =>
    if absGt (cadd (PQ_injections_all.data.getD i czero)
        (calcP.data.getD i czero)) tol then
      PQ_injections_all.ids.get? i
    else none)

/-- The guard in `go_cosim`'s tick loop: call `where_power_unbalanced` with
its default `tol = 1` and raise (here: `Except.error` carrying the bad bus
names) iff any id was collected. -/
def power_balance_gate (PQ_injections_all calcP : XArr) :
    Except (List String) Unit :=
  let bad_bus_names := where_power_unbalanced PQ_injections_all calcP 1
  if 0 < bad_bus_names.length then Except.error bad_bus_names
  else Except.ok ()

/-! ## `StateEstimatorFederate.run`: the synchronization loop body -/

/-- The per-tick input of the estimator federate's loop: the decoded
topology, whether the voltage-magnitude subscription carries fresh data
(`is_updated()`), and the decoded V/P/Q payloads. -/
structure TickInput where
  topology : Topology
  updated : Bool
  voltages : MeasurementArray
  power_P : MeasurementArray
  power_Q : MeasurementArray
  deriving DecidableEq, Repr

/-- The loop-carried estimator state, `self.initial_ang`/`self.initial_V`
(both `None` before the first valid tick; the magnitude guess is a scalar
mean, the angle guess an array). -/
structure EstimatorState where
  initial_ang : Option InitGuess
  initial_V : Option InitGuess
  deriving DecidableEq, Repr

/-- One iteration of the `while granted_time < MAXTIME` body of
`StateEstimatorFederate.run`.  Result `none` is a raised exception;
`some (st, none)` is the stale-input skip (`continue` without publishing);
`some (st, some (mag, ang))` publishes the two vectors (with the topology's
ids and the input timestamp) and carries `st` to the next tick.
The slack lookup models the `for i in range(len(ids))` scan (last match
wins, like the dict comprehension); a run whose slack bus is absent from
the admittance ids is outside this model.  The two commented-out
assignments `self.initial_V = voltage_magnitudes` /
`self.initial_ang = voltage_angles` are absent from the source, so the
carried state is NOT updated with the estimator output. -/
def run_step (ls : LSProblem → List ℚ) (parameters : AlgorithmParameters)
    (st : EstimatorState) (inp : TickInput) :
    Option (EstimatorState × Option (List ℚ × List ℚ)) :=
  if inp.updated = false then some (st, none)
  else
    (inp.topology.slack_bus.get? 0).bind (fun slack0 =>
      (invLookup inp.topology.admittance.ids slack0).bind (fun slack_index =>
        (get_indices inp.topology inp.voltages).bind (fun knownV =>
          (match st.initial_V with
            | some v => some v
            | none =>
              (mapOption
                (fun k =>
                  inp.topology.base_voltage_magnitudes.values.get? k)
                knownV).map
                (fun bvK => InitGuess.scalar
                  (meanQ (List.zipWith (· / ·) inp.voltages.values bvK)))
          ).bind (fun initial_V =>
            let initial_ang :=
              match st.initial_ang with
              | some a => a
              | none =>
                InitGuess.arr inp.topology.base_voltage_angles.values
            (state_estimator ls parameters inp.topology inp.power_P
                inp.power_Q inp.voltages initial_ang initial_V
                slack_index).map
              (fun result => (⟨some initial_ang, some initial_V⟩,
                some result))))))

/-- Concrete topology for the loop witnesses: one node `"a"` which is also
the slack bus. -/
def topoEx : Topology :=
  ⟨⟨[[(1, 0)]], ["a"]⟩, ⟨[2], ["a"], "V", none, none, none, none⟩,
    ⟨[0], ["a"], "rad", none, none, none, none⟩, ["a"]⟩

/-- Concrete real-power payload. -/
def measP : MeasurementArray := ⟨[1], ["a"], "W", none, none, none, none⟩

/-- Concrete reactive-power payload. -/
def measQ : MeasurementArray := ⟨[1], ["a"], "W", none, none, none, none⟩

/-- Concrete voltage-magnitude payload. -/
def measV : MeasurementArray := ⟨[2], ["a"], "V", none, none, none, none⟩

/-- An echo solver oracle: returns the initial point unchanged. -/
def lsEcho : LSProblem → List ℚ := fun pr => pr.X0

/-- Concrete `PER_UNIT` parameters. -/
def pEx : AlgorithmParameters := ⟨5e-7, UnitSystem.PER_UNIT, some 100⟩

/-! ## Theorems -/

theorem isSome_map (f : α → β) (o : Option α) :
    (o.map f).isSome = o.isSome := by
  cases o <;> rfl

theorem invLookup_get (ids : List String) (v : String) (k : Nat)
    (h : invLookup ids v = some k) : ids.get? k = some v := by
  induction ids generalizing k with
  | nil => simp [invLookup] at h
  | cons x xs ih =>
    simp only [invLookup] at h
    cases hxs : invLookup xs v with
    | some j =>
      rw [hxs] at h
      cases h
      simpa using ih j hxs
    | none =>
      rw [hxs] at h
      by_cases hx : x = v
      · simp [hx] at h
        subst hx
        cases h
        simp
      · simp [hx] at h

theorem invLookup_eq_none (ids : List String) (v : String)
    (h : v ∉ ids) : invLookup ids v = none := by
  induction ids with
  | nil => rfl
  | cons x xs ih =>
    simp only [List.mem_cons, not_or] at h
    simp [invLookup, ih h.2, Ne.symm h.1, h.1]

theorem invLookup_isSome (ids : List String) (v : String)
    (h : v ∈ ids) : (invLookup ids v).isSome := by
  induction ids with
  | nil => simp at h
  | cons x xs ih =>
    simp only [invLookup]
    cases hxs : invLookup xs v with
    | some j => simp
    | none =>
      rcases List.mem_cons.mp h with h1 | h2
      · simp [h1]
      · have := ih h2
        rw [hxs] at this
        simp at this

theorem invLookup_mem (ids : List String) (v : String)
    (h : (invLookup ids v).isSome) : v ∈ ids := by
  cases hk : invLookup ids v with
  | none => rw [hk] at h; simp at h
  | some k => exact List.get?_mem (invLookup_get ids v k hk)

theorem invLookup_nodup (ids : List String) (v : String) (j : Nat)
    (hnd : ids.Nodup) (h : ids.get? j = some v) : invLookup ids v = some j := by
  induction ids generalizing j with
  | nil => simp at h
  | cons x xs ih =>
    rcases List.nodup_cons.mp hnd with ⟨hx, hxs⟩
    cases j with
    | zero =>
      simp only [List.get?] at h
      cases h
      have : invLookup xs v = none := invLookup_eq_none xs v hx
      simp [invLookup, this]
    | succ j =>
      simp only [List.get?] at h
      have := ih j hxs h
      simp [invLookup, this]

theorem mapOption_eq_some_map (f : α → Option β) (g : α → β) (l : List α)
    (h : ∀ x ∈ l, f x = some (g x)) : mapOption f l = some (l.map g) := by
  induction l with
  | nil => rfl
  | cons x xs ih =>
    have hx : f x = some (g x) := h x (List.mem_cons_self x xs)
    have hxs := ih (fun y hy => h y (List.mem_cons_of_mem x hy))
    simp [mapOption, hx, hxs]

theorem mapOption_length (f : α → Option β) (l : List α) (ys : List β)
    (h : mapOption f l = some ys) : ys.length = l.length := by
  induction l generalizing ys with
  | nil => simp [mapOption] at h; simp [← h]
  | cons x xs ih =>
    simp only [mapOption] at h
    cases hx : f x with
    | none => rw [hx] at h; simp at h
    | some y =>
      rw [hx] at h
      cases hxs : mapOption f xs with
      | none => rw [hxs] at h; simp at h
      | some zs =>
        rw [hxs] at h
        simp at h
        simp [← h, ih zs hxs]

theorem mapOption_isSome_iff (f : α → Option β) (l : List α) :
    (mapOption f l).isSome ↔ ∀ x ∈ l, (f x).isSome := by
  induction l with
  | nil => simp [mapOption]
  | cons x xs ih =>
    simp only [mapOption]
    cases hx : f x with
    | none =>
      constructor
      · intro h
        exact absurd h (by simp)
      · intro hall
        have h2 := hall x (List.mem_cons_self x xs)
        rw [hx] at h2
        exact absurd h2 (by simp)
    | some y =>
      have hmap : ((mapOption f xs).map (fun ys => y :: ys)).isSome
          = (mapOption f xs).isSome := by
        cases mapOption f xs <;> rfl
      rw [hmap, ih]
      constructor
      · intro hall z hz
        rcases List.mem_cons.mp hz with h1 | h2
        · subst h1; rw [hx]; rfl
        · exact hall z h2
      · intro hall z hz
        exact hall z (List.mem_cons_of_mem x hz)

theorem mapOption_get (f : α → Option β) (l : List α) (ys : List β) (j : Nat)
    (h : mapOption f l = some ys) (y : β) (hy : ys.get? j = some y) :
    ∃ x, l.get? j = some x ∧ f x = some y := by
  induction l generalizing ys j with
  | nil => simp [mapOption] at h; subst h; simp at hy
  | cons x xs ih =>
    simp only [mapOption] at h
    cases hx : f x with
    | none => rw [hx] at h; simp at h
    | some z =>
      rw [hx] at h
      cases hxs : mapOption f xs with
      | none => rw [hxs] at h; simp at h
      | some zs =>
        rw [hxs] at h
        have h' : z :: zs = ys := by simpa using h
        subst h'
        cases j with
        | zero =>
          simp only [List.get?] at hy
          cases hy
          exact ⟨x, rfl, hx⟩
        | succ j =>
          simp only [List.get?] at hy ⊢
          exact ih zs j hxs hy

theorem invLookup_isSome_iff (ids : List String) (v : String) :
    (invLookup ids v).isSome ↔ v ∈ ids :=
  ⟨invLookup_mem ids v, invLookup_isSome ids v⟩

theorem valueAt_eq_some (a : MeasurementArray) (v : String)
    (hlen : a.values.length = a.ids.length) (hv : v ∈ a.ids) :
    (invLookup a.ids v).bind (fun k => a.values.get? k) = some (valueAt a v) := by
  cases hk : invLookup a.ids v with
  | none =>
    have := invLookup_isSome a.ids v hv
    rw [hk] at this
    exact absurd this (by simp)
  | some k =>
    have hget := invLookup_get a.ids v k hk
    have hklt : k < a.ids.length := by
      by_contra hge
      rw [List.get?_eq_none.mpr (Nat.le_of_not_lt hge)] at hget
      exact Option.noConfusion hget
    cases hw : a.values.get? k with
    | none =>
      rw [List.get?_eq_none] at hw
      omega
    | some w =>
      rw [valueAt, hk]
      show a.values.get? k = some ((a.values.get? k).getD 0)
      rw [hw]
      rfl

theorem map_valueAt (a : MeasurementArray)
    (hnd : a.ids.Nodup) (hlen : a.values.length = a.ids.length) :
    a.ids.map (valueAt a) = a.values := by
  apply List.ext_get?
  intro n
  rw [List.get?_map]
  cases hn : a.ids.get? n with
  | none =>
    rw [List.get?_eq_none] at hn
    rw [List.get?_eq_none.mpr (by omega)]
    rfl
  | some v =>
    have hk : invLookup a.ids v = some n := invLookup_nodup a.ids v n hnd hn
    have hnlt : n < a.ids.length := by
      by_contra hge
      rw [List.get?_eq_none.mpr (Nat.le_of_not_lt hge)] at hn
      exact Option.noConfusion hn
    cases hw : a.values.get? n with
    | none =>
      rw [List.get?_eq_none] at hw
      omega
    | some w =>
      have hval : valueAt a v = w := by
        rw [valueAt, hk]
        show (a.values.get? n).getD 0 = w
        rw [hw]
        rfl
      show some (valueAt a v) = some w
      rw [hval]

/-- C5 (amended form): for nodup ids with parallel values and any permutation
`l1` of the ids, `reindex (reindex a l1) a.ids` succeeds and reproduces `a`
in `values`, `ids`, `units`, `equipment_type` and `time`, while `accuracy`
and `bad_data_threshold` of the result are `none`. -/
theorem reindex_roundtrip (a : MeasurementArray) (l1 : List String)
    (hnd : a.ids.Nodup) (hlen : a.values.length = a.ids.length)
    (hperm : List.Perm l1 a.ids) :
    ∃ b, reindex a l1 = some b ∧
      reindex b a.ids =
        some { a with accuracy := none, bad_data_threshold := none } := by
  have hmem : ∀ v ∈ l1, v ∈ a.ids := fun v hv => hperm.mem_iff.mp hv
  have h1 : mapOption
      (fun i => (invLookup a.ids i).bind (fun k => a.values.get? k)) l1
      = some (l1.map (valueAt a)) :=
    mapOption_eq_some_map _ (valueAt a) l1
      (fun v hv => valueAt_eq_some a v hlen (hmem v hv))
  refine ⟨⟨l1.map (valueAt a), l1, a.units, a.equipment_type, none, none,
    a.time⟩, by rw [reindex, h1]; rfl, ?_⟩
  have hndl1 : l1.Nodup := (List.Perm.nodup_iff hperm).mpr hnd
  have h2 : mapOption
      (fun i => (invLookup l1 i).bind (fun k => (l1.map (valueAt a)).get? k))
      a.ids = some (a.ids.map (valueAt a)) := by
    apply mapOption_eq_some_map
    intro v hv
    have hvl1 : v ∈ l1 := hperm.mem_iff.mpr hv
    cases hk : invLookup l1 v with
    | none =>
      have := invLookup_isSome l1 v hvl1
      rw [hk] at this
      exact absurd this (by simp)
    | some k =>
      have hget : l1.get? k = some v := invLookup_get l1 v k hk
      simp only [Option.bind_some, Option.some_bind]
      rw [List.get?_map, hget]
      rfl
  rw [reindex]
  show (mapOption
      (fun i => (invLookup l1 i).bind (fun k => (l1.map (valueAt a)).get? k))
      a.ids).map _ = _
  rw [h2]
  show some (⟨a.ids.map (valueAt a), a.ids, a.units, a.equipment_type, none,
    none, a.time⟩ : MeasurementArray) = _
  rw [map_valueAt a hnd hlen]

/-- Witness for `reindex_roundtrip` at a concrete array and permutation. -/
theorem reindex_roundtrip_witness :
    reindex
      ((reindex ⟨[3, 7], ["a", "b"], "V", none, none, none, none⟩
          ["b", "a"]).getD ⟨[], [], "", none, none, none, none⟩)
      ["a", "b"]
      = some ⟨[3, 7], ["a", "b"], "V", none, none, none, none⟩ := by
  obtain ⟨b, hb1, hb2⟩ := reindex_roundtrip
    ⟨[3, 7], ["a", "b"], "V", none, none, none, none⟩ ["b", "a"]
    (by decide) (by decide) (by decide)
  rw [hb1]
  exact hb2

/-- C5 as stated is false: `reindex` does not carry `accuracy` over, so the
round trip differs from `A` in the `accuracy` field on this input. -/
theorem reindex_roundtrip_counterexample :
    ¬ (reindex
        ((reindex ⟨[3], ["a"], "V", none, some [2], none, none⟩ ["a"]).getD
          ⟨[], [], "", none, none, none, none⟩) ["a"]
      = some ⟨[3], ["a"], "V", none, some [2], none, none⟩) := by
  decide

/-- C6: strict index lookup fails exactly when an id is absent from the
reference list, and absent ids are never dropped or zero-filled:
`get_indices` succeeds iff every measurement id occurs among the topology's
admittance ids, in which case it returns one index per measurement id, each
pointing back at that id; `reindex` (on an array with parallel
`values`/`ids`) succeeds iff every target id occurs among the array's ids,
in which case it returns one value per target id. -/
theorem strict_lookup_fails_iff_absent (topology : Topology)
    (measurement a : MeasurementArray) (indices : List String) :
    ((get_indices topology measurement).isSome
      ↔ ∀ v ∈ measurement.ids, v ∈ topology.admittance.ids)
    ∧ (∀ l, get_indices topology measurement = some l →
        l.length = measurement.ids.length
        ∧ ∀ j k, l.get? j = some k →
            topology.admittance.ids.get? k = measurement.ids.get? j)
    ∧ (a.values.length = a.ids.length →
        ((reindex a indices).isSome ↔ ∀ v ∈ indices, v ∈ a.ids))
    ∧ (∀ b, reindex a indices = some b →
        b.values.length = indices.length ∧ b.ids = indices) := by
  refine ⟨?_, ?_, ?_, ?_⟩
  · rw [get_indices, mapOption_isSome_iff]
    constructor
    · intro h v hv
      exact invLookup_mem _ v (h v hv)
    · intro h v hv
      exact invLookup_isSome _ v (h v hv)
  · intro l hl
    refine ⟨mapOption_length _ _ _ hl, ?_⟩
    intro j k hjk
    obtain ⟨v, hv, hfv⟩ := mapOption_get _ _ _ j hl k hjk
    rw [invLookup_get _ v k hfv, hv]
  · intro hlen
    rw [reindex, isSome_map, mapOption_isSome_iff]
    constructor
    · intro h v hv
      have := h v hv
      cases hk : invLookup a.ids v with
      | none => rw [hk] at this; exact absurd this (by simp)
      | some k => exact invLookup_mem a.ids v (by rw [hk]; rfl)
    · intro h v hv
      rw [valueAt_eq_some a v hlen (h v hv)]
      rfl
  · intro b hb
    rw [reindex] at hb
    cases hm : mapOption
        (fun i => (invLookup a.ids i).bind (fun k => a.values.get? k))
        indices with
    | none => rw [hm] at hb; exact absurd hb (by simp)
    | some vals =>
      rw [hm] at hb
      injection hb with hb'
      subst hb'
      exact ⟨mapOption_length _ _ _ hm, rfl⟩

/-- Witness for `strict_lookup_fails_iff_absent`: on a concrete topology and
measurement with an id (`"c"`) absent from the admittance ids, `get_indices`
fails. -/
theorem strict_lookup_witness :
    get_indices
        ⟨⟨[[(1, 0)]], ["a"]⟩, ⟨[1], ["a"], "V", none, none, none, none⟩,
          ⟨[0], ["a"], "rad", none, none, none, none⟩, ["a"]⟩
        ⟨[5], ["c"], "V", none, none, none, none⟩ = none := by
  cases hg : get_indices
      ⟨⟨[[(1, 0)]], ["a"]⟩, ⟨[1], ["a"], "V", none, none, none, none⟩,
        ⟨[0], ["a"], "rad", none, none, none, none⟩, ["a"]⟩
      ⟨[5], ["c"], "V", none, none, none, none⟩ with
  | none => rfl
  | some l =>
    have h := ((strict_lookup_fails_iff_absent
        ⟨⟨[[(1, 0)]], ["a"]⟩, ⟨[1], ["a"], "V", none, none, none, none⟩,
          ⟨[0], ["a"], "rad", none, none, none, none⟩, ["a"]⟩
        ⟨[5], ["c"], "V", none, none, none, none⟩
        ⟨[5], ["c"], "V", none, none, none, none⟩ ["c"]).1).mp
      (by rw [hg]; rfl)
    have h2 := h "c" (by decide)
    exact absurd h2 (by decide)

/-- Structure extensionality for `Cplx`. -/
theorem Cplx.ext1 (a b : Cplx) (h1 : a.re = b.re) (h2 : a.im = b.im) :
    a = b := by
  cases a; cases b; cases h1; cases h2; rfl

theorem conj_zero : conj czero = czero := by
  apply Cplx.ext1 <;> simp [conj, czero]

theorem conj_add (a b : Cplx) : conj (cadd a b) = cadd (conj a) (conj b) := by
  apply Cplx.ext1 <;> simp [conj, cadd] <;> ring

theorem conj_mul (a b : Cplx) : conj (cmul a b) = cmul (conj a) (conj b) := by
  apply Cplx.ext1 <;> simp [conj, cmul] <;> ring

theorem conj_dotc (r v : List Cplx) :
    conj (dotc r v) = dotc (vecConj r) (vecConj v) := by
  induction r generalizing v with
  | nil => exact conj_zero
  | cons x r ih =>
    cases v with
    | nil => exact conj_zero
    | cons y v =>
      show conj (cadd (cmul x y) (dotc r v))
        = cadd (cmul (conj x) (conj y)) (dotc (vecConj r) (vecConj v))
      rw [conj_add, conj_mul, ih]

/-- Conjugation commutes with the matrix–vector product:
`conj(Y @ w) = conj(Y) @ conj(w)`. -/
theorem vecConj_matvec (Y : List (List Cplx)) (w : List Cplx) :
    vecConj (matvec Y w) = matvec (matConj Y) (vecConj w) := by
  simp only [vecConj, matvec, matConj, List.map_map]
  congr 1
  funext row
  exact conj_dotc row w

/-- C1 counterexample: at one node with `Y = [[1]]`, magnitude 1 and an angle
whose complex phase is `i`, `cal_h` and the claim's reference formula
disagree (`1` versus `-1` for the predicted real power). -/
theorem cal_h_claim_counterexample :
    cal_h cexpQuarterTurn [0] [] [] [[⟨1, 0⟩]] [0] [1] 1
      ≠ claim_h cexpQuarterTurn [0] [] [] [[⟨1, 0⟩]] [0] [1] 1 := by
  norm_num [cal_h, claim_h, mapOption, matvec, matConj, vecConj, dotc, cmul,
    cadd, conj, cscale, czero, cexpQuarterTurn, List.get?]

/-- C1 (amended form): `cal_h` agrees with the reference definition in which
`S = Vp ⊙ conj(Y @ Vp)` (equivalently `Vp ⊙ (conj(Y) @ conj(Vp))`), and the
residual function returns `z - h(x)` on the split state vector. -/
theorem cal_h_eq_claim_amended (cexp : ℚ → Cplx)
    (knownP knownQ knownV : List ℕ) (Y : List (List Cplx))
    (deltaK VabsK X0 z : List ℚ) (num_node : ℕ) :
    cal_h cexp knownP knownQ knownV Y deltaK VabsK num_node
      = claim_h_amended cexp knownP knownQ knownV Y deltaK VabsK num_node
    ∧ residual cexp X0 z num_node knownP knownQ knownV Y
      = (cal_h cexp knownP knownQ knownV Y (X0.take num_node)
          (X0.drop num_node) num_node).map
        (fun h => List.zipWith (· - ·) z h) := by
  constructor
  · simp only [cal_h, claim_h_amended, vecConj_matvec]
  · rfl

/-- C2 counterexample: in `SI` units with a single nonzero real power, the
code's measurement vector negates the power, contradicting the claimed
`×1000` scaling. -/
theorem build_z_Y_counterexample :
    build_z_Y ⟨5e-7, UnitSystem.SI, some 100⟩
        ⟨⟨[[(1, 0)]], ["a"]⟩, ⟨[1], ["a"], "V", none, none, none, none⟩,
          ⟨[0], ["a"], "rad", none, none, none, none⟩, ["a"]⟩
        ⟨[1], ["a"], "W", none, none, none, none⟩
        ⟨[0], ["a"], "W", none, none, none, none⟩
        ⟨[1], ["a"], "V", none, none, none, none⟩ [0]
      ≠ claim_z_Y ⟨5e-7, UnitSystem.SI, some 100⟩
        ⟨⟨[[(1, 0)]], ["a"]⟩, ⟨[1], ["a"], "V", none, none, none, none⟩,
          ⟨[0], ["a"], "rad", none, none, none, none⟩, ["a"]⟩
        ⟨[1], ["a"], "W", none, none, none, none⟩
        ⟨[0], ["a"], "W", none, none, none, none⟩
        ⟨[1], ["a"], "V", none, none, none, none⟩ [0] := by
  norm_num [build_z_Y, claim_z_Y, matrix_to_numpy]

/-- C2 (amended form): the normalization block of `state_estimator` agrees
with the amended rule (claimed rule with the powers negated) for every unit
system, parameter set and input. -/
theorem build_z_Y_eq_claim_amended (parameters : AlgorithmParameters)
    (topology : Topology) (P Q V : MeasurementArray) (knownV : List ℕ) :
    build_z_Y parameters topology P Q V knownV
      = claim_z_Y_amended parameters topology P Q V knownV := by
  simp only [build_z_Y, claim_z_Y_amended, neg_mul, neg_div]

theorem solverBranches_eq :
    @solverBranchUnobservable = @solverBranchObservable := by
  funext ls X0 z num_node knownP knownQ knownV Y tol
  rfl

/-- C9: the two solver branches are behaviorally equivalent — for every
solver oracle and every argument list they make the same unconstrained call
with the same argument pack — and consequently `state_estimator` coincides
everywhere with its single-code-path variant. -/
theorem solver_branches_equivalent (ls : LSProblem → List ℚ) (X0 z : List ℚ)
    (num_node : ℕ) (knownP knownQ knownV : List ℕ) (Y : List (List Cplx))
    (tol : ℚ) (parameters : AlgorithmParameters) (topology : Topology)
    (P Q V : MeasurementArray) (initial_ang initial_V : InitGuess)
    (slack_index : ℕ) :
    solverBranchUnobservable ls X0 z num_node knownP knownQ knownV Y tol
      = solverBranchObservable ls X0 z num_node knownP knownQ knownV Y tol
    ∧ state_estimator ls parameters topology P Q V initial_ang initial_V
        slack_index
      = state_estimator_single ls parameters topology P Q V initial_ang
        initial_V slack_index := by
  constructor
  · rfl
  · simp only [state_estimator, state_estimator_single, solverBranches_eq,
      ite_self]

theorem se_post_spec (units : UnitSystem) (base_voltages : List ℚ)
    (slack_index num_node : ℕ) (result : List ℚ) (mag ang : List ℚ)
    (h : se_post units base_voltages slack_index num_node result
      = some (mag, ang)) :
    ang.get? slack_index = some 0
    ∧ (units = UnitSystem.PER_UNIT →
        mag = List.zipWith (· * ·) (result.drop num_node) base_voltages) := by
  rw [se_post] at h
  cases hvs : (result.take num_node).get? slack_index with
  | none => rw [hvs] at h; exact Option.noConfusion h
  | some vs =>
    rw [hvs] at h
    cases units with
    | SI =>
      injection h with h'
      injection h' with hmag hang
      constructor
      · rw [← hang, List.get?_map, hvs]
        show some (vs - vs) = some 0
        rw [sub_self]
      · intro hu
        exact UnitSystem.noConfusion hu
    | PER_UNIT =>
      injection h with h'
      injection h' with hmag hang
      constructor
      · rw [← hang, List.get?_map, hvs]
        show some (vs - vs) = some 0
        rw [sub_self]
      · intro _
        rw [← hmag]

/-- C3: every successful `state_estimator` run returns an angle vector that
is exactly `0` at the slack index (the raw solver angles are shifted by
their slack entry), and under `PER_UNIT` the returned magnitude vector is
the solver's per-unit magnitude — the tail of the solver's result on the
exact argument pack the code builds (initial point `[delta; Vabs]`, the
normalized `z` and `Y`, the three known-index lists, and the three
tolerances) — multiplied elementwise by the base voltage magnitudes. -/
theorem state_estimator_slack_zero (ls : LSProblem → List ℚ)
    (parameters : AlgorithmParameters) (topology : Topology)
    (P Q V : MeasurementArray) (initial_ang initial_V : InitGuess)
    (slack_index : ℕ) (mag ang : List ℚ)
    (h : state_estimator ls parameters topology P Q V initial_ang initial_V
      slack_index = some (mag, ang)) :
    ang.get? slack_index = some 0
    ∧ (parameters.units = UnitSystem.PER_UNIT →
        ∀ knownP knownQ knownV zY,
          get_indices topology P = some knownP →
          get_indices topology Q = some knownQ →
          get_indices topology V = some knownV →
          build_z_Y parameters topology P Q V knownV = some zY →
          mag = List.zipWith (· * ·)
            ((ls ⟨expandGuess topology.admittance.ids.length initial_ang
                  ++ expandGuess topology.admittance.ids.length initial_V,
                zY.1, topology.admittance.ids.length, knownP, knownQ, knownV,
                zY.2, parameters.tol, parameters.tol,
                parameters.tol⟩).drop topology.admittance.ids.length)
            topology.base_voltage_magnitudes.values) := by
  constructor
  · have h2 := h
    rw [state_estimator.eq_def] at h2
    dsimp only at h2
    repeat' split at h2
    all_goals try exact Option.noConfusion h2
    all_goals exact (se_post_spec _ _ _ _ _ _ _ h2).1
  · intro hu knownP knownQ knownV zY hkP hkQ hkV hzY
    rw [state_estimator.eq_def] at h
    rw [hkP] at h
    dsimp only at h
    rw [hkQ] at h
    dsimp only at h
    rw [hkV] at h
    dsimp only at h
    rw [hzY] at h
    dsimp only at h
    cases initial_ang <;> cases initial_V
    all_goals simp only [expandGuess]
    all_goals dsimp only at h
    all_goals simp only [solverBranches_eq, ite_self] at h
    all_goals repeat' split at h
    all_goals try exact Option.noConfusion h
    all_goals exact (se_post_spec _ _ _ _ _ _ _ h).2 hu

/-- Witness for `state_estimator_slack_zero`: a concrete one-node `PER_UNIT`
run with an echo solver oracle; the returned angle at the slack index is 0
and the returned magnitude `[10]` is the magnitude tail of the solver's
result on the concretely normalized problem, rescaled by the base voltage
`[2]`. -/
theorem state_estimator_slack_zero_witness :
    ([(0 : ℚ)] : List ℚ).get? 0 = some 0
    ∧ ([10] : List ℚ) = List.zipWith (· * ·)
        (((fun pr : LSProblem => pr.X0)
            ⟨expandGuess 1 (InitGuess.arr [3])
                ++ expandGuess 1 (InitGuess.scalar 5),
              ([1, -1/100, -1/100] : List ℚ), 1, [0], [0], [0],
              [[⟨1/25000, 0⟩]], 5e-7, 5e-7, 5e-7⟩).drop 1)
        [2] := by
  have h : state_estimator (fun pr => pr.X0)
      ⟨5e-7, UnitSystem.PER_UNIT, some 100⟩
      ⟨⟨[[(1, 0)]], ["a"]⟩, ⟨[2], ["a"], "V", none, none, none, none⟩,
        ⟨[0], ["a"], "rad", none, none, none, none⟩, ["a"]⟩
      ⟨[1], ["a"], "W", none, none, none, none⟩
      ⟨[1], ["a"], "W", none, none, none, none⟩
      ⟨[2], ["a"], "V", none, none, none, none⟩
      (InitGuess.arr [3]) (InitGuess.scalar 5) 0 = some ([10], [0]) := by
    norm_num [state_estimator, get_indices, build_z_Y, se_post,
      solverBranchObservable, matrix_to_numpy, invLookup, mapOption,
      List.get?, cscale]
  have hth := state_estimator_slack_zero (fun pr => pr.X0)
    ⟨5e-7, UnitSystem.PER_UNIT, some 100⟩
    ⟨⟨[[(1, 0)]], ["a"]⟩, ⟨[2], ["a"], "V", none, none, none, none⟩,
      ⟨[0], ["a"], "rad", none, none, none, none⟩, ["a"]⟩
    ⟨[1], ["a"], "W", none, none, none, none⟩
    ⟨[1], ["a"], "W", none, none, none, none⟩
    ⟨[2], ["a"], "V", none, none, none, none⟩
    (InitGuess.arr [3]) (InitGuess.scalar 5) 0 [10] [0] h
  exact ⟨hth.1, hth.2 rfl [0] [0] [0]
    ([1, -1/100, -1/100], [[⟨1/25000, 0⟩]])
    (by decide) (by decide) (by decide)
    (by norm_num [build_z_Y, mapOption, matrix_to_numpy, cscale,
      List.get?])⟩

theorem getD_eq_of_get? (l : List Cplx) (i : ℕ) (c : Cplx)
    (h : l.get? i = some c) : l.getD i czero = c := by
  induction l generalizing i with
  | nil => simp at h
  | cons x xs ih =>
    cases i with
    | zero => simp only [List.get?] at h; cases h; rfl
    | succ i =>
      simp only [List.get?] at h
      exact ih i h

theorem get?_zipWith (f : Cplx → Cplx → Cplx) (as bs : List Cplx) (j : ℕ)
    (a b : Cplx) (ha : as.get? j = some a) (hb : bs.get? j = some b) :
    (List.zipWith f as bs).get? j = some (f a b) := by
  induction as generalizing bs j with
  | nil => simp at ha
  | cons x xs ih =>
    cases bs with
    | nil => simp at hb
    | cons y ys =>
      cases j with
      | zero =>
        simp only [List.get?] at ha hb
        cases ha; cases hb; rfl
      | succ j =>
        simp only [List.get?] at ha hb ⊢
        exact ih ys j ha hb

theorem mem_filterMap_zip (l1 : List String) (l2 : List Cplx) (tol : ℚ)
    (x : String)
    (hx : x ∈ (l1.zip l2).filterMap
      (fun q => if absGt q.2 tol then some q.1 else none)) :
    ∃ j b, l1.get? j = some x ∧ l2.get? j = some b ∧ absGt b tol := by
  induction l1 generalizing l2 with
  | nil => simp at hx
  | cons y l1 ih =>
    cases l2 with
    | nil => simp at hx
    | cons b l2 =>
      rw [List.zip_cons_cons, List.filterMap_cons] at hx
      by_cases hb : absGt b tol
      · rw [if_pos hb] at hx
        have hx' : x = y ∨ x ∈ (l1.zip l2).filterMap
            (fun q => if absGt q.2 tol then some q.1 else none) := by
          simpa using hx
        rcases hx' with h1 | h2
        · subst h1
          exact ⟨0, b, rfl, rfl, hb⟩
        · obtain ⟨j, c, hj1, hj2, hj3⟩ := ih l2 h2
          exact ⟨j + 1, c, hj1, hj2, hj3⟩
      · rw [if_neg hb] at hx
        have hx' : x ∈ (l1.zip l2).filterMap
            (fun q => if absGt q.2 tol then some q.1 else none) := by
          simpa using hx
        obtain ⟨j, c, hj1, hj2, hj3⟩ := ih l2 hx'
        exact ⟨j + 1, c, hj1, hj2, hj3⟩

theorem filterMap_congr_mem (l : List ℕ) (f g : ℕ → Option String)
    (h : ∀ i ∈ l, f i = g i) : l.filterMap f = l.filterMap g := by
  induction l with
  | nil => rfl
  | cons x xs ih =>
    rw [List.filterMap_cons, List.filterMap_cons,
      h x (List.mem_cons_self x xs),
      ih (fun i hi => h i (List.mem_cons_of_mem x hi))]

theorem filterMap_zip_eq_range (ids : List String) (errs : List Cplx)
    (tol : ℚ) (hlen : errs.length = ids.length) :
    (ids.zip errs).filterMap
        (fun q => if absGt q.2 tol then some q.1 else none)
      = (List.range ids.length).filterMap (fun i =>
          if absGt (errs.getD i czero) tol then ids.get? i else none) := by
  induction ids generalizing errs with
  | nil => simp
  | cons x xs ih =>
    cases errs with
    | nil => simp at hlen
    | cons e es =>
      have hlen' : es.length = xs.length := by
        simpa using hlen
      have htail := ih es hlen'
      by_cases he : absGt e tol
      · simp only [List.zip_cons_cons, List.filterMap_cons, List.length_cons,
          List.range_succ_eq_map, List.filterMap_map,
          List.getD_cons_zero, List.getD_cons_succ, List.get?_cons_zero,
          List.get?_cons_succ, he, if_true]
        rw [htail]
        exact congrArg _ (filterMap_congr_mem _ _ _ (fun i _ => rfl))
      · simp only [List.zip_cons_cons, List.filterMap_cons, List.length_cons,
          List.range_succ_eq_map, List.filterMap_map,
          List.getD_cons_zero, List.getD_cons_succ, List.get?_cons_zero,
          List.get?_cons_succ, he, if_false]
        rw [htail]
        exact filterMap_congr_mem _ _ _ (fun i _ => rfl)

/-- C7 counterexample: with `V = [i]`, `Y = [[1]]` and a declared injection
of `1`, the code's check (which divides by 1000 and conjugates the whole
current) reports bus `"a"`, while the claim's formula predicts an empty
set. -/
theorem power_balance_check_counterexample :
    where_power_unbalanced ⟨[⟨1, 0⟩], ["a"]⟩
        (calculated_power [[⟨1, 0⟩]] ⟨[⟨0, 1⟩], ["a"]⟩) 1
      ≠ claim_unbalanced_set ⟨[⟨1, 0⟩], ["a"]⟩
        (claim_calculated [[⟨1, 0⟩]] ⟨[⟨0, 1⟩], ["a"]⟩) 1 := by
  norm_num [where_power_unbalanced, claim_unbalanced_set, calculated_power,
    claim_calculated, absGt, matvec, matConj, vecConj, dotc, cmul, cadd,
    conj, cscale, czero, List.get?, List.getD, List.filterMap_cons,
    List.range_succ, List.range_zero]

/-- C7 (amended form): the calculated power is
`V[i]*conj((Y @ V)[i])/1000`; with parallel arrays `where_power_unbalanced`
returns exactly the ids at positions where `|declared[i]+calculated[i]| >
tol`; and the producer tick fails (reporting exactly those ids) iff that
set is non-empty, with default `tol = 1`. -/
theorem power_balance_check_amended (Y : List (List Cplx)) (V : XArr)
    (PQ C : XArr) (tol : ℚ) :
    calculated_power Y V = claim_calculated_amended Y V
    ∧ (PQ.data.length = PQ.ids.length → C.data.length = PQ.ids.length →
        where_power_unbalanced PQ C tol = claim_unbalanced_set PQ C tol)
    ∧ (power_balance_gate PQ C = Except.ok ()
        ↔ where_power_unbalanced PQ C 1 = [])
    ∧ (power_balance_gate PQ C = Except.error (where_power_unbalanced PQ C 1)
        ↔ where_power_unbalanced PQ C 1 ≠ []) := by
  refine ⟨?_, ?_, ?_, ?_⟩
  · simp only [calculated_power, claim_calculated_amended, vecConj_matvec]
  · intro h1 h2
    rw [where_power_unbalanced, claim_unbalanced_set]
    have herr : (List.zipWith cadd PQ.data C.data).length
        = PQ.ids.length := by
      rw [List.length_zipWith, h1, h2]
      omega
    rw [filterMap_zip_eq_range _ _ _ herr]
    apply filterMap_congr_mem
    intro i hi
    have hi' : i < PQ.ids.length := List.mem_range.mp hi
    have hia : i < PQ.data.length := by omega
    have hib : i < C.data.length := by omega
    obtain ⟨a, ha⟩ : ∃ a, PQ.data.get? i = some a := by
      cases hx : PQ.data.get? i with
      | none => rw [List.get?_eq_none] at hx; omega
      | some a => exact ⟨a, rfl⟩
    obtain ⟨b, hb⟩ : ∃ b, C.data.get? i = some b := by
      cases hx : C.data.get? i with
      | none => rw [List.get?_eq_none] at hx; omega
      | some b => exact ⟨b, rfl⟩
    rw [getD_eq_of_get? _ _ _ (get?_zipWith cadd _ _ i a b ha hb),
      getD_eq_of_get? _ _ _ ha, getD_eq_of_get? _ _ _ hb]
  · unfold power_balance_gate
    dsimp only
    by_cases hw : 0 < (where_power_unbalanced PQ C 1).length
    · rw [if_pos hw]
      constructor
      · intro h
        exact Except.noConfusion h
      · intro h
        rw [h] at hw
        simp at hw
    · rw [if_neg hw]
      constructor
      · intro _
        exact List.length_eq_zero.mp (by omega)
      · intro _
        rfl
  · unfold power_balance_gate
    dsimp only
    by_cases hw : 0 < (where_power_unbalanced PQ C 1).length
    · rw [if_pos hw]
      constructor
      · intro _ hnil
        rw [hnil] at hw
        simp at hw
      · intro _
        rfl
    · rw [if_neg hw]
      have hnil : where_power_unbalanced PQ C 1 = [] :=
        List.length_eq_zero.mp (by omega)
      constructor
      · intro h
        exact Except.noConfusion h
      · intro h
        exact absurd hnil h

/-- Witness for `power_balance_check_amended`: on a concrete balanced
one-node system the code's check and the claimed set coincide (both empty)
and the gate passes. -/
theorem power_balance_check_amended_witness :
    where_power_unbalanced ⟨[⟨3, 0⟩], ["a"]⟩ ⟨[⟨-3, 0⟩], ["a"]⟩ 1
        = claim_unbalanced_set ⟨[⟨3, 0⟩], ["a"]⟩ ⟨[⟨-3, 0⟩], ["a"]⟩ 1 :=
  ((power_balance_check_amended [] ⟨[], []⟩ ⟨[⟨3, 0⟩], ["a"]⟩
      ⟨[⟨-3, 0⟩], ["a"]⟩ 1).2.1) (by decide) (by decide)

/-- C10: the consistency check can never report a source node.  After the
override in `get_current_data`, the balance error at every source index is
exactly `-calculated + calculated = 0`, so for any positive tolerance the id
at a (valid) source index is absent from `where_power_unbalanced`'s result
(with nodup ids and parallel arrays). -/
theorem source_nodes_never_reported (PQ calcP : XArr) (src : List ℕ)
    (tol : ℚ) (htol : 0 < tol)
    (hlen1 : PQ.data.length = PQ.ids.length)
    (hlen2 : calcP.data.length = PQ.ids.length)
    (hnd : PQ.ids.Nodup)
    (i : ℕ) (hi : i ∈ src) (idv : String)
    (hid : PQ.ids.get? i = some idv) :
    idv ∉ where_power_unbalanced (override_source_injections PQ calcP src)
      calcP tol := by
  intro hmem
  have hmem' : idv ∈ (PQ.ids.zip
      (List.zipWith cadd
        (override_source_injections PQ calcP src).data calcP.data)).filterMap
      (fun q => if absGt q.2 tol then some q.1 else none) := hmem
  obtain ⟨j, b, hj1, hj2, hj3⟩ := mem_filterMap_zip _ _ tol idv hmem'
  have hIi : invLookup PQ.ids idv = some i := invLookup_nodup _ _ _ hnd hid
  have hIj : invLookup PQ.ids idv = some j := invLookup_nodup _ _ _ hnd hj1
  have hij : i = j := by
    rw [hIi] at hIj
    exact Option.some.inj hIj
  subst hij
  have hilt : i < PQ.ids.length := by
    by_contra hge
    rw [List.get?_eq_none.mpr (Nat.le_of_not_lt hge)] at hid
    exact Option.noConfusion hid
  obtain ⟨c, hc⟩ : ∃ c, calcP.data.get? i = some c := by
    cases hx : calcP.data.get? i with
    | none => rw [List.get?_eq_none] at hx; omega
    | some c => exact ⟨c, rfl⟩
  have hcD : calcP.data.getD i czero = c := getD_eq_of_get? _ _ _ hc
  have hov : (override_source_injections PQ calcP src).data.get? i
      = some (cneg c) := by
    show ((List.range PQ.data.length).map _).get? i = _
    rw [List.get?_map, List.get?_range (by omega : i < PQ.data.length)]
    show some (if i ∈ src then cneg (calcP.data.getD i czero)
      else PQ.data.getD i czero) = some (cneg c)
    rw [if_pos hi, hcD]
  have hzip : (List.zipWith cadd
      (override_source_injections PQ calcP src).data calcP.data).get? i
      = some (cadd (cneg c) c) := get?_zipWith cadd _ _ i _ c hov hc
  have hb : b = cadd (cneg c) c := by
    rw [hj2] at hzip
    exact Option.some.inj hzip
  have hzero : cadd (cneg c) c = czero := by
    apply Cplx.ext1 <;> simp [cadd, cneg, czero]
  rw [hb, hzero] at hj3
  rcases hj3 with hlt | hlt
  · exact absurd hlt (not_lt.mpr (le_of_lt htol))
  · have h0 : czero.re * czero.re + czero.im * czero.im = 0 := by
      norm_num [czero]
    rw [h0] at hlt
    exact absurd hlt (not_lt.mpr (mul_self_nonneg tol))

/-- Witness for `source_nodes_never_reported` at a concrete one-node system
whose only node is a source. -/
theorem source_nodes_never_reported_witness :
    "a" ∉ where_power_unbalanced
      (override_source_injections ⟨[⟨5, 0⟩], ["a"]⟩ ⟨[⟨2, 3⟩], ["a"]⟩ [0])
      ⟨[⟨2, 3⟩], ["a"]⟩ 1 :=
  source_nodes_never_reported ⟨[⟨5, 0⟩], ["a"]⟩ ⟨[⟨2, 3⟩], ["a"]⟩ [0] 1
    (by norm_num) (by decide) (by decide) (by decide) 0 (by decide) "a"
    (by decide)

/-- C8: on a granted time whose voltage-magnitude subscription carries no
fresh value, the loop body runs no estimator and publishes nothing — it
returns to waiting with the carried state unchanged. -/
theorem stale_tick_skips (ls : LSProblem → List ℚ)
    (parameters : AlgorithmParameters) (st : EstimatorState)
    (inp : TickInput) (h : inp.updated = false) :
    run_step ls parameters st inp = some (st, none) := by
  rw [run_step, if_pos h]

/-- Witness for `stale_tick_skips` at a concrete stale tick. -/
theorem stale_tick_skips_witness :
    run_step lsEcho pEx ⟨none, none⟩ ⟨topoEx, false, measV, measP, measQ⟩
      = some (⟨none, none⟩, none) :=
  stale_tick_skips lsEcho pEx ⟨none, none⟩
    ⟨topoEx, false, measV, measP, measQ⟩ rfl

/-- C4 counterexample: a processed tick starting from an already-initialized
carried state returns that state unchanged next to an estimator output
`([10], [0])`, whereas the claim says the new carried state holds the
estimator's output (which would be
`⟨some (arr [0]), some (arr [10])⟩` — angle then magnitude). -/
theorem run_step_no_overwrite_counterexample :
    run_step lsEcho pEx
        ⟨some (InitGuess.arr [3]), some (InitGuess.scalar 5)⟩
        ⟨topoEx, true, measV, measP, measQ⟩
      = some (⟨some (InitGuess.arr [3]), some (InitGuess.scalar 5)⟩,
          some ([10], [0]))
    ∧ (⟨some (InitGuess.arr [3]), some (InitGuess.scalar 5)⟩
          : EstimatorState)
      ≠ ⟨some (InitGuess.arr [0]), some (InitGuess.arr [10])⟩ := by
  constructor
  · norm_num [run_step, state_estimator, get_indices, build_z_Y, se_post,
      solverBranchObservable, solverBranchUnobservable, matrix_to_numpy,
      invLookup, mapOption, List.get?, cscale, meanQ, lsEcho, pEx, topoEx,
      measP, measQ, measV]
  · norm_num

/-- C4 (amended form): on a processed tick, the carried `EstimatorState` is
created with the flat-start default (angle = topology base angles,
magnitude = scalar mean of the observed per-unit voltages) when both fields
are unset, and an already-initialized state is returned unchanged — the
estimator's output is never stored back. -/
theorem run_step_flat_start_and_carry (ls : LSProblem → List ℚ)
    (parameters : AlgorithmParameters) (st : EstimatorState)
    (inp : TickInput) (st' : EstimatorState)
    (out : Option (List ℚ × List ℚ))
    (hupd : inp.updated = true)
    (h : run_step ls parameters st inp = some (st', out)) :
    (∀ a v, st = ⟨some a, some v⟩ → st' = st)
    ∧ (st = ⟨none, none⟩ →
        st'.initial_ang
            = some (InitGuess.arr inp.topology.base_voltage_angles.values)
        ∧ ∃ knownV bvK,
            get_indices inp.topology inp.voltages = some knownV
            ∧ mapOption
                (fun k =>
                  inp.topology.base_voltage_magnitudes.values.get? k) knownV
              = some bvK
            ∧ st'.initial_V = some (InitGuess.scalar
                (meanQ (List.zipWith (· / ·) inp.voltages.values bvK)))) := by
  rw [run_step, if_neg (by rw [hupd]; simp)] at h
  rw [Option.bind_eq_some] at h
  obtain ⟨slack0, hs0, h⟩ := h
  rw [Option.bind_eq_some] at h
  obtain ⟨slack_index, hsi, h⟩ := h
  rw [Option.bind_eq_some] at h
  obtain ⟨knownV, hkV, h⟩ := h
  rw [Option.bind_eq_some] at h
  obtain ⟨initial_V, hiV, h⟩ := h
  rw [Option.map_eq_some'] at h
  obtain ⟨result, hres, hpair⟩ := h
  cases hpair
  constructor
  · intro a v hst
    subst hst
    have hv : v = initial_V := by simpa using hiV
    subst hv
    rfl
  · intro hst
    subst hst
    have hiV' : (mapOption
        (fun k => inp.topology.base_voltage_magnitudes.values.get? k)
        knownV).map
        (fun bvK => InitGuess.scalar
          (meanQ (List.zipWith (· / ·) inp.voltages.values bvK)))
        = some initial_V := hiV
    rw [Option.map_eq_some'] at hiV'
    obtain ⟨bvK, hbvK, hscalar⟩ := hiV'
    exact ⟨rfl, knownV, bvK, hkV, hbvK, by rw [← hscalar]⟩

/-- Witness for `run_step_flat_start_and_carry`: the concrete processed tick
of the counterexample, instantiating the carried-unchanged conjunct. -/
theorem run_step_flat_start_and_carry_witness :
    (⟨some (InitGuess.arr [3]), some (InitGuess.scalar 5)⟩ : EstimatorState)
      = ⟨some (InitGuess.arr [3]), some (InitGuess.scalar 5)⟩ :=
  (run_step_flat_start_and_carry lsEcho pEx
      ⟨some (InitGuess.arr [3]), some (InitGuess.scalar 5)⟩
      ⟨topoEx, true, measV, measP, measQ⟩
      ⟨some (InitGuess.arr [3]), some (InitGuess.scalar 5)⟩
      (some ([10], [0])) rfl
      (by norm_num [run_step, state_estimator, get_indices, build_z_Y,
        se_post, solverBranchObservable, solverBranchUnobservable,
        matrix_to_numpy, invLookup, mapOption, List.get?, cscale, meanQ,
        lsEcho, pEx, topoEx, measP, measQ, measV])).1
    (InitGuess.arr [3]) (InitGuess.scalar 5) rfl

end SGIDAL

